import Mathlib

/- Verification development for bigquery_etl/udf/parse_udf.py.
   Strings are modelled as Lean String values and scanned as lists of
   characters; the regular expressions of the source are implemented as
   explicit scanning functions with the same matching semantics (leftmost,
   non-overlapping, greedy). Recursions that the source performs without a
   bound (the dependency traversal, regex scans) take an explicit fuel
   argument; the scans are always run with fuel equal to the input length,
   which every step strictly decreases. -/

-- ### Python string primitives

/-- Python whitespace, as recognised by str.split and str.strip. -/
def pySpace (c : Char) : Bool :=
  c = ' ' || c = '\t' || c = '\n' || c = '\r' || c = '\x0b' || c = '\x0c'

/-- The sloppy character class `[a-zA-z0-9_]` (UDF_CHAR) of the source; the
    range A-z also admits the six characters between Z and a. -/
def udfChar (c : Char) : Bool :=
  ('a' ≤ c && c ≤ 'z') || ('A' ≤ c && c ≤ 'z') || ('0' ≤ c && c ≤ '9') || c = '_'

/-- The word character class `[a-zA-Z0-9_]` used by UDF_NAME_RE. -/
def wordChar (c : Char) : Bool :=
  ('a' ≤ c && c ≤ 'z') || ('A' ≤ c && c ≤ 'Z') || ('0' ≤ c && c ≤ '9') || c = '_'

/-- The character class `[a-zA-Z]`. -/
def alphaChar (c : Char) : Bool :=
  ('a' ≤ c && c ≤ 'z') || ('A' ≤ c && c ≤ 'Z')

/-- Does the second list occur as an initial segment of the first? -/
def listStartsWith : List Char → List Char → Bool
  | _, [] => true
  | [], _ :: _ => false
  | c :: cs, p :: ps => c = p && listStartsWith cs ps

/-- Python substring containment `needle in hay`, over character lists. -/
def subFind (needle : List Char) : List Char → Bool
  | [] => listStartsWith [] needle
  | c :: cs => listStartsWith (c :: cs) needle || subFind needle cs

/-- Python `needle in hay` on strings. -/
def pyContains (hay needle : String) : Bool := subFind needle.toList hay.toList

/-- Python str.startswith. -/
def pyStartsWith (s p : String) : Bool := listStartsWith s.toList p.toList

/-- Python str.endswith. -/
def pyEndsWith (s p : String) : Bool := listStartsWith s.toList.reverse p.toList.reverse

/-- Python str.lower (ASCII; all inputs in this development are ASCII). -/
def pyLower (s : String) : String := String.mk (s.toList.map Char.toLower)

/-- Python str.strip over character lists. -/
def pyStripChars (cs : List Char) : List Char :=
  ((cs.dropWhile pySpace).reverse.dropWhile pySpace).reverse

/-- Python str.strip. -/
def pyStrip (s : String) : String := String.mk (pyStripChars s.toList)

/-- Helper for Python str.split with no argument: words accumulated in
    reverse into cur, whitespace runs separate words, empties dropped. -/
def splitWsGo (cur : List Char) : List Char → List (List Char)
  | [] => if cur.isEmpty then [] else [cur.reverse]
  | c :: cs =>
    if pySpace c then
      if cur.isEmpty then splitWsGo [] cs else cur.reverse :: splitWsGo [] cs
    else splitWsGo (c :: cur) cs

/-- Python str.split with no argument. -/
def pySplitWs (s : String) : List String := (splitWsGo [] s.toList).map String.mk

/-- Python sep.join(l). -/
def joinStrs (sep : String) : List String → String
  | [] => ""
  | [s] => s
  | s :: t :: rest => s ++ sep ++ joinStrs sep (t :: rest)

/-- The statement normalization `" ".join(s.lower().split())` of from_text. -/
def pyNormalize (s : String) : String := joinStrs " " (pySplitWs (pyLower s))

/-- Python string comparison: lexicographic by code point. -/
def strLeChars : List Char → List Char → Bool
  | [], _ => true
  | _ :: _, [] => false
  | a :: as, b :: bs => if a = b then strLeChars as bs else decide (a < b)

/-- Python `a <= b` on strings. -/
def strLe (a b : String) : Bool := strLeChars a.toList b.toList

/-- Insertion into a sorted list of strings. -/
def insertStr (s : String) : List String → List String
  | [] => [s]
  | t :: ts => if strLe s t then s :: t :: ts else t :: insertStr s ts

/-- Python sorted() on a list of strings. -/
def pySortStrs (l : List String) : List String := l.foldr insertStr []

/-- Python list.remove: drop the first occurrence only; none models the
    ValueError raised when the element is absent. -/
def pyListRemove (target : String) : List String → Option (List String)
  | [] => none
  | x :: xs =>
    if x = target then some xs
    else (pyListRemove target xs).map (fun ys => x :: ys)

-- ### The regular expressions of the source, as explicit scanners

/-- Match a literal character sequence, returning the rest of the input. -/
def matchLit : List Char → List Char → Option (List Char)
  | [], cs => some cs
  | _ :: _, [] => none
  | p :: ps, c :: cs => if c = p then matchLit ps cs else none

/-- PERSISTENT_UDF_RE = `((?:udf|assert)[a-zA-z0-9_]*)\.([a-zA-z0-9_]+)`
    tried at the head of the input; on success returns (group1, group2, rest).
    The dot is not in the class, so the greedy star always ends at the first
    character outside the class and no further backtracking can succeed. -/
def matchPersistentAt (cs : List Char) : Option (List Char × List Char × List Char) :=
  let tryStart (p : List Char) : Option (List Char × List Char × List Char) :=
    match matchLit p cs with
    | none => none
    | some r1 =>
      let run1 := r1.takeWhile udfChar
      match r1.dropWhile udfChar with
      | '.' :: r2 =>
        let run2 := r2.takeWhile udfChar
        if run2.isEmpty then none else some (p ++ run1, run2, r2.dropWhile udfChar)
      | _ => none
  match tryStart "udf".toList with
  | some r => some r
  | none => tryStart "assert".toList

/-- re.findall(PERSISTENT_UDF_RE, _): leftmost non-overlapping scan. -/
def findPersistentGo : Nat → List Char → List (List Char × List Char)
  | 0, _ => []
  | _ + 1, [] => []
  | fuel + 1, c :: cs =>
    match matchPersistentAt (c :: cs) with
    | some (g1, g2, rest) => (g1, g2) :: findPersistentGo fuel rest
    | none => findPersistentGo fuel cs

/-- re.findall(PERSISTENT_UDF_RE, s), as (group1, group2) pairs. -/
def findPersistent (s : String) : List (List Char × List Char) :=
  findPersistentGo s.toList.length s.toList

/-- TEMP_UDF_RE = `(?:udf|assert)_[a-zA-z0-9_]+` tried at the head of the
    input; on success returns (match, rest). -/
def matchTempAt (cs : List Char) : Option (List Char × List Char) :=
  let tryStart (p : List Char) : Option (List Char × List Char) :=
    match matchLit p cs with
    | none => none
    | some r1 =>
      match r1 with
      | '_' :: r2 =>
        let run := r2.takeWhile udfChar
        if run.isEmpty then none else some (p ++ '_' :: run, r2.dropWhile udfChar)
      | _ => none
  match tryStart "udf".toList with
  | some r => some r
  | none => tryStart "assert".toList

/-- re.findall(TEMP_UDF_RE, _): leftmost non-overlapping scan. -/
def findTempGo : Nat → List Char → List String
  | 0, _ => []
  | _ + 1, [] => []
  | fuel + 1, c :: cs =>
    match matchTempAt (c :: cs) with
    | some (m, rest) => String.mk m :: findTempGo fuel rest
    | none => findTempGo fuel cs

/-- re.findall(TEMP_UDF_RE, s). -/
def findTemp (s : String) : List String := findTempGo s.toList.length s.toList

/-- PERSISTENT_UDF_RE.sub(r"\1_\2", _): each match is replaced by
    group1 ++ "_" ++ group2 and the scan resumes after the match. -/
def subPersistentGo : Nat → List Char → List Char
  | 0, cs => cs
  | _ + 1, [] => []
  | fuel + 1, c :: cs =>
    match matchPersistentAt (c :: cs) with
    | some (g1, g2, rest) => g1 ++ '_' :: (g2 ++ subPersistentGo fuel rest)
    | none => c :: subPersistentGo fuel cs

/-- Substitute persistent UDF references with temporary UDF references. -/
def sub_persistent_udf_names_as_temp (text : String) : String :=
  String.mk (subPersistentGo text.toList.length text.toList)

/-- Match a pattern list in which a dot is the regex wildcard: any single
    character other than a newline. -/
def matchWild : List Char → List Char → Option (List Char)
  | [], cs => some cs
  | _ :: _, [] => none
  | p :: ps, c :: cs =>
    if (p = '.' && c ≠ '\n') || p = c then matchWild ps cs else none

/-- The pattern `(?:mozfun.)?NAME` of sub_local_routines, tried at the head
    of the input. The routine name is interpolated into the regex unescaped,
    so its dots are wildcards as well; the optional group is tried first. -/
def tryMozfunAt (name : List Char) (cs : List Char) : Option (List Char) :=
  match matchWild ("mozfun.".toList ++ name) cs with
  | some rest => some rest
  | none => matchWild name cs

/-- re.sub of the `(?:mozfun.)?NAME` pattern with a fixed replacement. -/
def mozfunSubGo (name repl : List Char) : Nat → List Char → List Char
  | 0, cs => cs
  | _ + 1, [] =>
    match tryMozfunAt name [] with
    | some _ => repl
    | none => []
  | fuel + 1, c :: cs =>
    match tryMozfunAt name (c :: cs) with
    | some rest =>
      if rest.length ≤ cs.length then repl ++ mozfunSubGo name repl fuel rest
      else repl ++ c :: mozfunSubGo name repl fuel cs
    | none => c :: mozfunSubGo name repl fuel cs

/-- Case-insensitive literal match (re.IGNORECASE, ASCII pattern). -/
def matchLitCI : List Char → List Char → Option (List Char)
  | [], cs => some cs
  | _ :: _, [] => none
  | p :: ps, c :: cs => if c.toLower = p.toLower then matchLitCI ps cs else none

/-- Regex `\s+`: at least one whitespace character, consumed greedily. -/
def matchWs : List Char → Option (List Char)
  | [] => none
  | c :: cs => if pySpace c then some (cs.dropWhile pySpace) else none

/-- The preamble pattern
    `CREATE\s+(OR\s+REPLACE\s+)?FUNCTION(\s+IF\s+NOT\s+EXISTS)?`
    (IGNORECASE) matched at the head of the input. Each optional group either
    matches completely or is skipped; a letter follows every whitespace run,
    so the greedy runs never need to backtrack. -/
def matchCreateFnAt (cs : List Char) : Option (List Char) :=
  match matchLitCI "CREATE".toList cs with
  | none => none
  | some r1 =>
    match matchWs r1 with
    | none => none
    | some r2 =>
      let r3 :=
        match matchLitCI "OR".toList r2 with
        | none => r2
        | some a =>
          match matchWs a with
          | none => r2
          | some b =>
            match matchLitCI "REPLACE".toList b with
            | none => r2
            | some c =>
              match matchWs c with
              | none => r2
              | some d => d
      match matchLitCI "FUNCTION".toList r3 with
      | none => none
      | some r4 =>
        let r5 :=
          match matchWs r4 with
          | none => r4
          | some a =>
            match matchLitCI "IF".toList a with
            | none => r4
            | some b =>
              match matchWs b with
              | none => r4
              | some c =>
                match matchLitCI "NOT".toList c with
                | none => r4
                | some d =>
                  match matchWs d with
                  | none => r4
                  | some e =>
                    match matchLitCI "EXISTS".toList e with
                    | none => r4
                    | some f => f
        some r5

/-- PERSISTENT_UDF_PREAMBLE_RE.sub("CREATE TEMP FUNCTION", _). -/
def subCreateFnGo : Nat → List Char → List Char
  | 0, cs => cs
  | _ + 1, [] => []
  | fuel + 1, c :: cs =>
    match matchCreateFnAt (c :: cs) with
    | some rest => "CREATE TEMP FUNCTION".toList ++ subCreateFnGo fuel rest
    | none => c :: subCreateFnGo fuel cs

/-- Rewrite persistent creation preambles to temp-scoped ones. -/
def subCreateFn (s : String) : String :=
  String.mk (subCreateFnGo s.toList.length s.toList)

-- ### Data model

/-- One entry of the MOZFUN_ROUTINES registry: a fully qualified routine name
    and whether its file was udf.sql (a function) rather than
    stored_procedure.sql. The registry is built by the source at import time
    by walking an external directory tree, so it is passed explicitly here. -/
structure MozfunRoutine where
  name : String
  is_udf : Bool
deriving DecidableEq

/-- Representation of the content of a single UDF sql file. -/
structure RawUdf where
  name : String
  dataset : String
  filepath : Option String
  definitions : List String
  tests : List String
  dependencies : List String
  description : String
  is_stored_procedure : Bool
deriving DecidableEq

/-- The errors raised by RawUdf.from_text (all ValueError in the source):
    the missing-definition error, the invalid-name error, and the error of
    list.remove when the element to remove is absent. -/
inductive UdfError where
  | expectedDefinition (persistent_name temp_name : String)
  | invalidName (name : String)
  | removeNotFound (name : String)
deriving DecidableEq

deriving instance DecidableEq for Except

def GENERIC_DATASET : String := "_generic_dataset_"

/-- The dict of RawUdf records keyed by name. -/
abbrev Catalog := List (String × RawUdf)

/-- Dict lookup raw_udfs[udf_name]. -/
def lookupCat (cat : Catalog) (name : String) : Option RawUdf := List.lookup name cat

/-- UDF_NAME_RE = `^([a-zA-Z0-9_]+\.)?[a-zA-Z][a-zA-Z0-9_]{0,255}$`, the tail
    after the optional group: a letter, then at most 255 word characters
    reaching the end of the string. The greedy bounded run cannot backtrack
    usefully because a shorter run leaves a word character before the end. -/
def matchNameTail (cs : List Char) : Bool :=
  match cs with
  | [] => false
  | a :: rest =>
    alphaChar a && decide ((rest.takeWhile wordChar).length ≤ 255)
      && (rest.dropWhile wordChar).isEmpty

/-- UDF_NAME_RE.match(s) as a whole-string test. The dot is not a word
    character, so the greedy run of the optional group always ends at the
    first character outside the class: the group matches exactly when that
    run is nonempty and the character after it is a dot, and the rest must
    then match the tail; if the group path fails, the bare tail is tried on
    the whole string. (The Python dollar anchor would also accept one
    trailing newline; no name arising in the claims contains one.) -/
def udfNameMatches (s : String) : Bool :=
  let cs := s.toList
  (!(cs.takeWhile wordChar).isEmpty
      && (cs.dropWhile wordChar).headD ' ' = '.'
      && matchNameTail (cs.dropWhile wordChar).tail)
    || matchNameTail cs

-- ### External collaborators (sqlparse), modelled from the spec

/-- Helper of sqlparse_split: accumulate the current chunk in reverse and cut
    after every semicolon. -/
def splitSemiGo (cur : List Char) : List Char → List (List Char)
  | [] => if cur.isEmpty then [] else [cur.reverse]
  | c :: cs =>
    if c = ';' then (c :: cur).reverse :: splitSemiGo [] cs
    else splitSemiGo (c :: cur) cs

/-- Modelled from the spec: statement splitting is delegated to the external
    sqlparse library, which is not part of this repository. Following section
    4.1 and the examples of section 8, the text is split after each
    statement-terminating semicolon (BEGIN...END bodies are split as well and
    re-merged downstream by the classifier), and each piece is
    whitespace-trimmed. -/
def sqlparse_split (sql : String) : List String :=
  (splitSemiGo [] sql.toList).map (fun cs => String.mk (pyStripChars cs))

/-- Modelled from the spec: comment stripping is performed by the external
    sqlparse library, not part of this repository; on comment-free text
    (every input arising in the claims) it is the identity, which is how it
    is modelled here. -/
def sqlparse_format_strip_comments (text : String) : String := text

-- ### Routine record builder (RawUdf.from_text)

/-- The mutable locals of the statement loop of RawUdf.from_text. The
    sentinel procedure_start = -1 of the source is modelled as none. -/
structure UdfScanState where
  definitions : List String
  tests : List String
  internal_name : Option String
  is_stored_procedure : Bool
  procedure_start : Option Nat
deriving DecidableEq

def initScanState : UdfScanState := ⟨[], [], none, false, none⟩

/-- One iteration of `for i, s in enumerate(statements)` of from_text. -/
def scanStep (statements : List String) (persistent_name temp_name : String)
    (st : UdfScanState) (i : Nat) (s : String) : UdfScanState :=
  let ns := pyNormalize s
  if pyStartsWith ns "create or replace function" then
    { st with definitions := st.definitions ++ [s],
              internal_name :=
                if pyContains ns persistent_name then some persistent_name
                else st.internal_name }
  else if pyStartsWith ns "create temp function" then
    { st with definitions := st.definitions ++ [s],
              internal_name :=
                if pyContains ns temp_name then some temp_name
                else st.internal_name }
  else if pyStartsWith ns "create or replace procedure" then
    { st with is_stored_procedure := true,
              definitions := st.definitions ++ [s],
              tests := st.tests ++ [s],
              internal_name :=
                if pyContains ns persistent_name then some persistent_name
                else st.internal_name }
  else
    let st1 := if pyStartsWith ns "begin" then { st with procedure_start := some i } else st
    let st2 :=
      if st1.procedure_start.isNone then { st1 with tests := st1.tests ++ [s] } else st1
    match st2.procedure_start with
    | some ps =>
      if pyEndsWith ns "end;" then
        { st2 with
            tests := st2.tests ++ [joinStrs " " ((statements.drop ps).take (i + 1 - ps))],
            procedure_start := none }
      else st2
    | none => st2

/-- The statement loop of from_text. -/
def scanStatements (statements : List String) (persistent_name temp_name : String) :
    UdfScanState :=
  statements.enum.foldl
    (fun st p => scanStep statements persistent_name temp_name st p.1 p.2) initScanState

/-- The dependency extraction of from_text over the joined definitions:
    persistent matches joined with a dot, then temp matches, then each
    registry routine whose name is contained in the joined definitions.
    No filtering of the sentinel udf_js happens here. -/
def extracted_dependencies (registry : List MozfunRoutine) (definitions : List String) :
    List String :=
  let joined := joinStrs "\n" definitions
  ((findPersistent joined).map (fun g => String.mk (g.1 ++ '.' :: g.2))
      ++ findTemp joined)
    ++ (registry.filter (fun u => pyContains joined u.name)).map (fun u => u.name)

/-- Create a RawUdf instance from text. Mirrors the source: the check
    `if name is None` of the loop `for name in (prod_name, internal_name)`
    is NOT guarded by is_defined (only the UDF_NAME_RE check is), and
    prod_name, being a Python string argument, is never None. -/
def RawUdf.from_text (registry : List MozfunRoutine) (text dataset name : String)
    (filepath : Option String) (description : String) (is_defined : Bool) :
    Except UdfError RawUdf :=
  let sql := sqlparse_format_strip_comments text
  let statements := (sqlparse_split sql).filter (fun s => !(pyStrip s).toList.isEmpty)
  let prod_name := name
  let persistent_name := dataset ++ "." ++ name
  let temp_name := dataset ++ "_" ++ name
  let st := scanStatements statements persistent_name temp_name
  if is_defined && !udfNameMatches prod_name then .error (.invalidName prod_name)
  else
    match st.internal_name with
    | none => .error (.expectedDefinition persistent_name temp_name)
    | some internal_name =>
      if is_defined && !udfNameMatches internal_name then .error (.invalidName internal_name)
      else
        let dependencies := extracted_dependencies registry st.definitions
        if is_defined then
          match pyListRemove internal_name dependencies with
          | none => .error (.removeNotFound internal_name)
          | some deps2 =>
            .ok ⟨internal_name, dataset, filepath, st.definitions, st.tests,
                 pySortStrs deps2.dedup, description, st.is_stored_procedure⟩
        else
          .ok ⟨internal_name, dataset, filepath, st.definitions, st.tests,
               pySortStrs dependencies.dedup, description, st.is_stored_procedure⟩

-- ### Dependency resolver

/-- The loop `for dep in ...: deps = accumulate_dependencies(deps, raw_udfs, dep)`
    shared by accumulate_dependencies and udf_usage_definitions. -/
def accListGo (f : List String → String → Option (List String)) :
    List String → List String → Option (List String)
  | deps, [] => some deps
  | deps, d :: ds =>
    match f deps d with
    | none => none
    | some deps2 => accListGo f deps2 ds

/-- Accumulate a list of dependent UDF names, depth-first. The source has no
    cycle guard and no depth bound; fuel bounds the recursion depth here, and
    none models a computation that exceeds every bound (in Python: exhausts
    the call stack). The membership check happens only AFTER recursing. -/
def accumulate_dependencies : Nat → Catalog → List String → String → Option (List String)
  | 0, _, _, _ => none
  | fuel + 1, raw_udfs, deps, udf_name =>
    match lookupCat raw_udfs udf_name with
    | none => some deps
    | some raw_udf =>
      match accListGo (accumulate_dependencies fuel raw_udfs) deps raw_udf.dependencies with
      | none => none
      | some deps2 => if udf_name ∈ deps2 then some deps2 else some (deps2 ++ [udf_name])

-- ### Reference extractor and rewrite engine

/-- Return a sorted deduplicated list of UDF names used in the SQL text.
    The temp-style sentinel match udf_js is filtered out here. -/
def udf_usages_in_text (registry : List MozfunRoutine) (text : String) : List String :=
  let sql := sqlparse_format_strip_comments text
  let udf_usages := (findPersistent sql).map (fun g => String.mk (g.1 ++ '.' :: g.2))
  let tmp_udfs := (findTemp sql).filter (fun u => u ≠ "udf_js")
  pySortStrs
    ((udf_usages ++ tmp_udfs)
        ++ (registry.filter (fun r => pyContains sql r.name)).map (fun r => r.name)).dedup

/-- Dict accesses raw_udfs[udf_name] of the comprehension of
    udf_usage_definitions; none models the KeyError on a missing key. -/
def lookupAll (raw_udfs : Catalog) : List String → Option (List RawUdf)
  | [] => some []
  | n :: ns =>
    match lookupCat raw_udfs n with
    | none => none
    | some u =>
      match lookupAll raw_udfs ns with
      | none => none
      | some us => some (u :: us)

/-- Return the definitions of UDFs used in the SQL text, dependency-first,
    skipping statements already contained in the text. -/
def udf_usage_definitions (fuel : Nat) (text : String) (raw_udfs : Catalog)
    (registry : List MozfunRoutine) : Option (List String) :=
  match accListGo (accumulate_dependencies fuel raw_udfs) []
      (udf_usages_in_text registry text) with
  | none => none
  | some deps =>
    match lookupAll raw_udfs deps with
    | none => none
    | some us =>
      some (us.flatMap (fun u => u.definitions.filter (fun st => !pyContains text st)))

/-- Prepend definitions of used UDFs to the SQL text, blank-line separated. -/
def prepend_udf_usage_definitions (fuel : Nat) (text : String) (raw_udfs : Catalog)
    (registry : List MozfunRoutine) : Option String :=
  match udf_usage_definitions fuel text raw_udfs registry with
  | none => none
  | some statements => some (joinStrs "\n\n" (statements ++ [text]))

/-- Python name.replace(".", "_"). -/
def dotsToUnderscores (s : String) : String :=
  String.mk (s.toList.map (fun c => if c = '.' then '_' else c))

/-- The replacement chosen for a registry routine by sub_local_routines:
    dots become underscores, and a procedure (not a function) is additionally
    prefixed with the generic dataset sentinel and a dot. -/
def mozfunReplName (r : MozfunRoutine) : String :=
  if r.is_udf then dotsToUnderscores r.name
  else GENERIC_DATASET ++ "." ++ dotsToUnderscores r.name

/-- One iteration of the registry loop of sub_local_routines:
    re.sub of `(?:mozfun.)?NAME` with the replacement name. -/
def mozfunRoutineSub (r : MozfunRoutine) (sql : String) : String :=
  String.mk (mozfunSubGo r.name.toList (mozfunReplName r).toList sql.toList.length sql.toList)

/-- Transform persistent UDFs into temporary UDFs: prepend the needed
    definitions, rewrite persistent references as temp ones, rewrite registry
    routines (with the generic dataset for stored procedures), and rewrite
    creation preambles to temp-scoped ones. -/
def sub_local_routines (fuel : Nat) (test : String) (raw_udfs : Catalog)
    (registry : List MozfunRoutine) : Option String :=
  match prepend_udf_usage_definitions fuel test raw_udfs registry with
  | none => none
  | some sql0 =>
    let sql1 := sub_persistent_udf_names_as_temp sql0
    let sql2 := registry.foldl
      (fun sql r => if pyContains sql r.name then mozfunRoutineSub r sql else sql) sql1
    some (subCreateFn sql2)

/-- Create the rewritten, standalone-executable SQL of every test. -/
def udf_tests_sql (fuel : Nat) (raw_udf : RawUdf) (raw_udfs : Catalog)
    (registry : List MozfunRoutine) : Option (List String) :=
  raw_udf.tests.mapM (fun test => sub_local_routines fuel test raw_udfs registry)

-- ### Invariants of the dependency resolver

/-- out extends deps by fresh, pairwise distinct catalog keys. -/
def AccExtends (cat : Catalog) (deps out : List String) : Prop :=
  ∃ t, out = deps ++ t ∧ t.Nodup ∧ (∀ x ∈ t, x ∉ deps) ∧ ∀ x ∈ t, (lookupCat cat x).isSome

theorem accExtends_refl (cat : Catalog) (deps : List String) : AccExtends cat deps deps :=
  ⟨[], by simp⟩

theorem accExtends_trans {cat : Catalog} {a b c : List String}
    (h1 : AccExtends cat a b) (h2 : AccExtends cat b c) : AccExtends cat a c := by
  obtain ⟨t1, rfl, hn1, hf1, hk1⟩ := h1
  obtain ⟨t2, rfl, hn2, hf2, hk2⟩ := h2
  refine ⟨t1 ++ t2, by simp, ?_, ?_, ?_⟩
  · rw [List.nodup_append]
    exact ⟨hn1, hn2, fun x hx1 hx2 => hf2 x hx2 (List.mem_append_right a hx1)⟩
  · intro x hx
    rcases List.mem_append.mp hx with h | h
    · exact hf1 x h
    · exact fun hxa => hf2 x h (List.mem_append_left t1 hxa)
  · intro x hx
    rcases List.mem_append.mp hx with h | h
    · exact hk1 x h
    · exact hk2 x h

theorem accListGo_extends {cat : Catalog} {f : List String → String → Option (List String)}
    (H : ∀ d n o, f d n = some o → AccExtends cat d o) :
    ∀ (l deps out : List String), accListGo f deps l = some out → AccExtends cat deps out := by
  intro l
  induction l with
  | nil =>
    intro deps out h
    simp only [accListGo] at h
    cases h
    exact accExtends_refl _ _
  | cons d ds ih =>
    intro deps out h
    simp only [accListGo] at h
    cases hf : f deps d with
    | none => rw [hf] at h; cases h
    | some deps2 =>
      rw [hf] at h
      exact accExtends_trans (H _ _ _ hf) (ih _ _ h)

theorem acc_extends : ∀ (fuel : Nat) (cat : Catalog) (deps : List String) (name : String)
    (out : List String), accumulate_dependencies fuel cat deps name = some out →
    AccExtends cat deps out := by
  intro fuel
  induction fuel with
  | zero => intro cat deps name out h; cases h
  | succ fuel ih =>
    intro cat deps name out h
    simp only [accumulate_dependencies] at h
    split at h
    · cases h
      exact accExtends_refl _ _
    · next u hl =>
      split at h
      · cases h
      · next deps2 hgo =>
        have hext : AccExtends cat deps deps2 :=
          accListGo_extends (fun d n o hh => ih cat d n o hh) _ _ _ hgo
        split at h
        · cases h
          exact hext
        · next hmem =>
          cases h
          exact accExtends_trans hext ⟨[name], rfl, by simp, by simp [hmem], by simp [hl]⟩

theorem acc_self_mem {fuel : Nat} {cat : Catalog} {deps : List String} {name : String}
    {out : List String} (h : accumulate_dependencies fuel cat deps name = some out)
    (hk : (lookupCat cat name).isSome) : name ∈ out := by
  cases fuel with
  | zero => cases h
  | succ fuel =>
    simp only [accumulate_dependencies] at h
    split at h
    · next hl => rw [hl] at hk; cases hk
    · next u hl =>
      split at h
      · cases h
      · next deps2 hgo =>
        split at h
        · next hmem => cases h; exact hmem
        · cases h; simp

theorem accListGo_mem {cat : Catalog} {fuel : Nat} :
    ∀ (l deps out : List String),
      accListGo (accumulate_dependencies fuel cat) deps l = some out →
      ∀ d ∈ l, (lookupCat cat d).isSome → d ∈ out := by
  intro l
  induction l with
  | nil => intro deps out h d hd; cases hd
  | cons x xs ih =>
    intro deps out h d hd hk
    simp only [accListGo] at h
    cases hf : accumulate_dependencies fuel cat deps x with
    | none => rw [hf] at h; cases h
    | some deps2 =>
      rw [hf] at h
      rcases List.mem_cons.mp hd with rfl | hd2
      · have h1 : d ∈ deps2 := acc_self_mem hf hk
        obtain ⟨t, rfl, -, -, -⟩ :=
          @accListGo_extends cat (accumulate_dependencies fuel cat)
            (fun a b c hh => acc_extends fuel cat a b c hh) xs deps2 out h
        exact List.mem_append_left _ h1
      · exact ih deps2 out h d hd2 hk

-- ### C1: cyclic catalogs

/-- A two-element cyclic catalog: udf_a depends on udf_b and vice versa. -/
def cycCatalog : Catalog :=
  [("udf_a", ⟨"udf_a", "udf", none, [], [], ["udf_b"], "", false⟩),
   ("udf_b", ⟨"udf_b", "udf", none, [], [], ["udf_a"], "", false⟩)]

set_option maxRecDepth 4000 in
/-- C1 counterexample: on the cyclic catalog the resolver does not return
    (and a fortiori raises no cyclic-dependency error) even with a recursion
    budget of 64: it runs out of every budget instead. -/
theorem C1_counterexample : accumulate_dependencies 64 cycCatalog [] "udf_a" = none := by
  decide

/-- C1 amended: starting from a name on a dependency cycle,
    accumulate_dependencies never terminates: for every recursion budget and
    every accumulated list it exhausts the budget. The source defines no
    CyclicDependency error and has no visiting guard; the guard is prescribed
    by the spec as a hardening over this source. -/
theorem C1_cycle_never_terminates : ∀ (fuel : Nat) (deps : List String),
    accumulate_dependencies fuel cycCatalog deps "udf_a" = none ∧
    accumulate_dependencies fuel cycCatalog deps "udf_b" = none := by
  intro fuel
  induction fuel with
  | zero => intro deps; exact ⟨rfl, rfl⟩
  | succ fuel ih =>
    intro deps
    constructor
    · show (match accListGo (accumulate_dependencies fuel cycCatalog) deps ["udf_b"] with
            | none => none
            | some deps2 =>
              if "udf_a" ∈ deps2 then some deps2 else some (deps2 ++ ["udf_a"])) = none
      rw [show accListGo (accumulate_dependencies fuel cycCatalog) deps ["udf_b"]
          = (match accumulate_dependencies fuel cycCatalog deps "udf_b" with
             | none => none
             | some deps2 => accListGo (accumulate_dependencies fuel cycCatalog) deps2 [])
          from rfl, (ih deps).2]
    · show (match accListGo (accumulate_dependencies fuel cycCatalog) deps ["udf_a"] with
            | none => none
            | some deps2 =>
              if "udf_b" ∈ deps2 then some deps2 else some (deps2 ++ ["udf_b"])) = none
      rw [show accListGo (accumulate_dependencies fuel cycCatalog) deps ["udf_a"]
          = (match accumulate_dependencies fuel cycCatalog deps "udf_a" with
             | none => none
             | some deps2 => accListGo (accumulate_dependencies fuel cycCatalog) deps2 [])
          from rfl, (ih deps).1]

-- ### C10: invariants of a terminating resolution

/-- C10: whenever accumulate_dependencies returns, the input deps is an
    initial segment of the output; everything appended beyond deps is a key
    of the catalog, is appended at most once, and only if it was not already
    present; hence a duplicate-free deps yields a duplicate-free result. -/
theorem C10_invariants : ∀ (fuel : Nat) (cat : Catalog) (deps : List String) (name : String)
    (out : List String), accumulate_dependencies fuel cat deps name = some out →
    ∃ t, out = deps ++ t ∧ t.Nodup ∧ (∀ x ∈ t, x ∉ deps) ∧
      (∀ x ∈ t, (lookupCat cat x).isSome) ∧ (deps.Nodup → out.Nodup) := by
  intro fuel cat deps name out h
  obtain ⟨t, rfl, hn, hf, hk⟩ := acc_extends fuel cat deps name out h
  refine ⟨t, rfl, hn, hf, hk, fun hd => ?_⟩
  rw [List.nodup_append]
  exact ⟨hd, hn, fun x hx hxt => hf x hxt hx⟩

/-- A small acyclic catalog shared by concrete instantiations. -/
def sampleCatalog : Catalog :=
  [("udf.a", ⟨"udf.a", "udf", none,
      ["CREATE OR REPLACE FUNCTION udf.a() AS (udf.b());"], [], ["udf.b"], "", false⟩),
   ("udf.b", ⟨"udf.b", "udf", none,
      ["CREATE OR REPLACE FUNCTION udf.b() AS (1);"], [], [], "", false⟩)]

theorem C10_invariants_witness :
    accumulate_dependencies 5 sampleCatalog [] "udf.a" = some ["udf.b", "udf.a"] ∧
    (∃ t, (["udf.b", "udf.a"] : List String) = [] ++ t ∧ t.Nodup ∧
      (∀ x ∈ t, x ∉ ([] : List String)) ∧
      (∀ x ∈ t, (lookupCat sampleCatalog x).isSome) ∧
      (([] : List String).Nodup → (["udf.b", "udf.a"] : List String).Nodup)) :=
  ⟨by decide, C10_invariants 5 sampleCatalog [] "udf.a" ["udf.b", "udf.a"] (by decide)⟩

-- ### C3: the persistent-to-temp reference rewrite

theorem strMkToList (s : String) : String.mk s.toList = s := rfl

theorem subPersistent_id_of_no_matches : ∀ (fuel : Nat) (cs : List Char),
    findPersistentGo fuel cs = [] → subPersistentGo fuel cs = cs := by
  intro fuel
  induction fuel with
  | zero => intro cs h; rfl
  | succ fuel ih =>
    intro cs h
    cases cs with
    | nil => rfl
    | cons c cs =>
      simp only [findPersistentGo] at h
      simp only [subPersistentGo]
      split at h
      · cases h
      · exact congrArg (c :: ·) (ih cs h)

/-- C3 counterexample: on "SELECT ds.f(1);" the substitution returns the
    input unchanged, not "SELECT ds_f(1);": PERSISTENT_UDF_RE only matches a
    dataset part starting with the literal udf or assert. -/
theorem C3_counterexample :
    sub_persistent_udf_names_as_temp "SELECT ds.f(1);" = "SELECT ds.f(1);" ∧
    sub_persistent_udf_names_as_temp "SELECT ds.f(1);" ≠ "SELECT ds_f(1);" :=
  ⟨by decide, by decide⟩

/-- C3 amended: the substitution rewrites dataset.identifier references whose
    dataset part begins with udf or assert (the shape PERSISTENT_UDF_RE
    matches), replacing the separating dot by an underscore, and leaves text
    without such references unchanged. -/
theorem C3_amended :
    sub_persistent_udf_names_as_temp "SELECT udf.f(1);" = "SELECT udf_f(1);" ∧
    sub_persistent_udf_names_as_temp "SELECT assert.eq(1);" = "SELECT assert_eq(1);" ∧
    ∀ s : String, findPersistent s = [] → sub_persistent_udf_names_as_temp s = s := by
  refine ⟨by decide, by decide, fun s h => ?_⟩
  show String.mk (subPersistentGo s.toList.length s.toList) = s
  rw [subPersistent_id_of_no_matches _ _ h]
  exact strMkToList s

theorem C3_amended_witness :
    findPersistent "SELECT 1;" = [] ∧
    sub_persistent_udf_names_as_temp "SELECT 1;" = "SELECT 1;" :=
  ⟨by decide, C3_amended.2.2 "SELECT 1;" (by decide)⟩

-- ### C4: the is_defined flag does not disable the definition requirement

/-- C4: from_text on text with no matching definition raises the
    missing-definition error even when the caller passes is_defined=False,
    exactly as it does with is_defined=True: the None check of the name loop
    is not guarded by is_defined, contradicting the docstring of from_text. -/
theorem C4_behavior :
    RawUdf.from_text [] "SELECT 1;" "udf" "foo" none "" false =
      .error (.expectedDefinition "udf.foo" "udf_foo") ∧
    RawUdf.from_text [] "SELECT 1;" "udf" "foo" none "" true =
      .error (.expectedDefinition "udf.foo" "udf_foo") :=
  ⟨by decide, by decide⟩

-- ### Concrete records of the remaining counterexamples

def c2record : RawUdf :=
  ⟨"udf.foo", "udf", none,
   ["CREATE OR REPLACE FUNCTION udf.foo() AS (udf.foo(1));"], [], ["udf.foo"], "", false⟩

/-- C2 counterexample: when the canonical name is matched twice in the
    definition text (here at the definition site and in the body), the single
    list.remove removes only one occurrence, the later set() keeps the rest,
    and the returned dependencies contain the canonical name itself. -/
theorem C2_counterexample :
    RawUdf.from_text [] "CREATE OR REPLACE FUNCTION udf.foo() AS (udf.foo(1));"
      "udf" "foo" none "" true = .ok c2record ∧
    c2record.name ∈ c2record.dependencies :=
  ⟨by decide, by decide⟩

def c5record : RawUdf :=
  ⟨"udf.foo", "udf", none,
   ["CREATE OR REPLACE FUNCTION udf.foo() AS (1);"], ["SELECT udf.foo(2);"], [], "", false⟩

/-- C5 counterexample: a trailing BEGIN span that is never closed makes
    from_text succeed, with the span statement silently absent from tests:
    no malformed-input error is raised. -/
theorem C5_counterexample :
    RawUdf.from_text []
      "CREATE OR REPLACE FUNCTION udf.foo() AS (1);\nSELECT udf.foo(2);\nBEGIN SELECT 3;"
      "udf" "foo" none "" true = .ok c5record ∧
    c5record.tests = ["SELECT udf.foo(2);"] :=
  ⟨by decide, by decide⟩

def c6record : RawUdf :=
  ⟨"udf.foo", "udf", none,
   ["CREATE OR REPLACE FUNCTION udf.foo() AS (udf_js.bar(1));"], [],
   ["udf_js", "udf_js.bar"], "", false⟩

/-- C6 counterexample: the dependency extraction of from_text applies no
    udf_js filter, so a definition referencing a routine of the udf_js
    dataset yields a dependencies list containing the sentinel udf_js. -/
theorem C6_counterexample :
    RawUdf.from_text [] "CREATE OR REPLACE FUNCTION udf.foo() AS (udf_js.bar(1));"
      "udf" "foo" none "" true = .ok c6record ∧
    "udf_js" ∈ c6record.dependencies :=
  ⟨by decide, by decide⟩

/-- C8 counterexample: with a self-overlapping registry name a.a, the input
    SELECT a.a.a; contains two occurrences of the name but only the first is
    replaced; the second, overlapping the first match, survives in the
    output, which therefore still contains the fully qualified name. -/
theorem C8_counterexample :
    sub_local_routines 5 "SELECT a.a.a;" [] [⟨"a.a", true⟩] = some "SELECT a_a.a;" ∧
    pyContains "SELECT a_a.a;" "a.a" = true :=
  ⟨by decide, by decide⟩

def exceptIsOk : Except UdfError RawUdf → Bool
  | .ok _ => true
  | .error _ => false

def c9dataset : String := "udf" ++ String.mk (List.replicate 250 'a')

set_option maxRecDepth 100000 in
/-- C9 counterexample: a resolved name of total length 257 is accepted by
    from_text without any error, because UDF_NAME_RE bounds only the part
    after the dot (at most 256 characters); the dataset part before the dot
    is unbounded. -/
theorem C9_counterexample :
    exceptIsOk (RawUdf.from_text []
      ("CREATE OR REPLACE FUNCTION " ++ c9dataset ++ ".foo() AS (1);")
      c9dataset "foo" none "" true) = true ∧
    (c9dataset ++ ".foo").length = 257 ∧
    udfNameMatches (c9dataset ++ ".foo") = true :=
  ⟨by decide, by decide, by decide⟩

-- ### C6: the udf_js exemption

theorem mem_insertStr {x s : String} : ∀ {l : List String}, x ∈ insertStr s l ↔ x = s ∨ x ∈ l := by
  intro l
  induction l with
  | nil => simp [insertStr]
  | cons t ts ih =>
    simp only [insertStr]
    split
    · simp [List.mem_cons]
    · rw [List.mem_cons, ih, List.mem_cons]
      tauto

theorem mem_pySortStrs {x : String} : ∀ {l : List String}, x ∈ pySortStrs l ↔ x ∈ l := by
  intro l
  induction l with
  | nil => simp [pySortStrs]
  | cons t ts ih =>
    show x ∈ insertStr t (pySortStrs ts) ↔ _
    rw [mem_insertStr, ih, List.mem_cons]

/-- C6 amended: the usage extractor never reports the sentinel udf_js, as
    long as no registry routine is itself literally named udf_js (registry
    names are dataset.name shaped): persistent-style usages always contain a
    dot, and the temp-style matches are filtered. The from_text dependency
    extraction has no such filter (see the counterexample). -/
theorem C6_amended : ∀ (registry : List MozfunRoutine) (text : String),
    (∀ r ∈ registry, r.name ≠ "udf_js") → "udf_js" ∉ udf_usages_in_text registry text := by
  intro reg text hreg hmem
  simp only [udf_usages_in_text] at hmem
  rw [mem_pySortStrs, List.mem_dedup] at hmem
  rcases List.mem_append.mp hmem with h | h
  · rcases List.mem_append.mp h with h | h
    · obtain ⟨g, hg, heq⟩ := List.mem_map.mp h
      have hdot : '.' ∈ ("udf_js" : String).toList := by
        rw [← heq]
        exact List.mem_append_right _ (List.mem_cons_self _ _)
      exact absurd hdot (by decide)
    · have := List.of_mem_filter h
      simp at this
  · obtain ⟨r, hr, heq⟩ := List.mem_map.mp h
    exact hreg r (List.mem_filter.mp hr).1 heq

theorem C6_amended_witness :
    udf_usages_in_text [] "SELECT udf_js.decode(1);" = ["udf_js.decode"] ∧
    "udf_js" ∉ udf_usages_in_text [] "SELECT udf_js.decode(1);" :=
  ⟨by decide, C6_amended [] "SELECT udf_js.decode(1);" (by simp)⟩

-- ### C2: self-reference removal

theorem pyListRemove_not_mem : ∀ (l : List String) (t : String) (l2 : List String),
    pyListRemove t l = some l2 → l.count t ≤ 1 → t ∉ l2 := by
  intro l
  induction l with
  | nil => intro t l2 h; cases h
  | cons x xs ih =>
    intro t l2 h hc
    simp only [pyListRemove] at h
    split at h
    · next hx =>
      cases h
      subst hx
      intro hmem
      rw [List.count_cons_self] at hc
      have h1 : 0 < xs.count x := List.count_pos_iff.mpr hmem
      omega
    · next hx =>
      cases hr : pyListRemove t xs with
      | none => rw [hr] at h; cases h
      | some ys =>
        rw [hr] at h
        cases h
        intro hmem
        rcases List.mem_cons.mp hmem with heq | hmem2
        · exact hx heq.symm
        · rw [List.count_cons_of_ne (fun he => hx he.symm)] at hc
          exact ih t ys hr hc hmem2

/-- C2 amended: a definition-backed record returned by from_text does not
    have its own canonical name among its dependencies provided the raw
    extraction finds that name at most once in the joined definitions; the
    code removes only the first found occurrence (before deduplicating), so
    the guarantee is conditional on the multiplicity, not unconditional. -/
theorem C2_amended : ∀ (registry : List MozfunRoutine) (text dataset nm : String)
    (fp : Option String) (desc : String) (r : RawUdf),
    RawUdf.from_text registry text dataset nm fp desc true = .ok r →
    (extracted_dependencies registry r.definitions).count r.name ≤ 1 →
    r.name ∉ r.dependencies := by
  intro reg text ds nm fp desc r h hc
  simp only [RawUdf.from_text] at h
  split at h
  · cases h
  · split at h
    · cases h
    · next iname hist =>
      split at h
      · cases h
      · simp only [if_true] at h
        split at h
        · cases h
        · next deps2 hrm =>
          cases h
          intro hmem
          rw [mem_pySortStrs, List.mem_dedup] at hmem
          exact pyListRemove_not_mem _ _ _ hrm hc hmem

def c2wRecord : RawUdf :=
  ⟨"udf.foo", "udf", none,
   ["CREATE OR REPLACE FUNCTION udf.foo() AS (1);"], [], [], "", false⟩

theorem C2_amended_witness :
    RawUdf.from_text [] "CREATE OR REPLACE FUNCTION udf.foo() AS (1);"
      "udf" "foo" none "" true = .ok c2wRecord ∧
    "udf.foo" ∉ c2wRecord.dependencies :=
  ⟨by decide,
   C2_amended [] "CREATE OR REPLACE FUNCTION udf.foo() AS (1);" "udf" "foo" none ""
     c2wRecord (by decide) (by decide)⟩

-- ### C8: registry routine rewriting

theorem listStartsWith_iff : ∀ (p l : List Char), listStartsWith l p = true ↔ ∃ r, l = p ++ r := by
  intro p
  induction p with
  | nil => intro l; simp [listStartsWith]
  | cons x xs ih =>
    intro l
    cases l with
    | nil =>
      simp only [listStartsWith]
      constructor
      · intro hF; cases hF
      · rintro ⟨r, h⟩; cases h
    | cons c cs =>
      simp only [listStartsWith, Bool.and_eq_true, decide_eq_true_eq, ih, List.cons_append]
      constructor
      · rintro ⟨rfl, r, rfl⟩; exact ⟨r, rfl⟩
      · rintro ⟨r, h⟩
        injection h with h1 h2
        exact ⟨h1, r, h2⟩

theorem subFind_iff : ∀ (hay needle : List Char),
    subFind needle hay = true ↔ ∃ p r, hay = p ++ needle ++ r := by
  intro hay needle
  induction hay with
  | nil =>
    cases needle with
    | nil =>
      constructor
      · intro _; exact ⟨[], [], rfl⟩
      · intro _; rfl
    | cons n ns =>
      simp only [subFind, listStartsWith]
      constructor
      · intro hF; cases hF
      · rintro ⟨p, r, h⟩
        cases p <;> cases h
  | cons c cs ih =>
    simp only [subFind, Bool.or_eq_true, ih, listStartsWith_iff]
    constructor
    · rintro (⟨r, h⟩ | ⟨p, r, h⟩)
      · exact ⟨[], r, by simpa using h⟩
      · exact ⟨c :: p, r, by simp [h]⟩
    · rintro ⟨p, r, h⟩
      cases p with
      | nil => exact Or.inl ⟨r, by simpa using h⟩
      | cons q qs =>
        right
        injection h with h1 h2
        exact ⟨qs, r, h2⟩

theorem matchWild_self : ∀ (pat rest : List Char), matchWild pat (pat ++ rest) = some rest := by
  intro pat
  induction pat with
  | nil => intro rest; rfl
  | cons p ps ih =>
    intro rest
    simp only [List.cons_append, matchWild]
    rw [if_pos]
    · exact ih rest
    · simp

theorem tryMozfunAt_at_occurrence (name rest : List Char) :
    (tryMozfunAt name (name ++ rest)).isSome := by
  unfold tryMozfunAt
  split
  · rfl
  · rw [matchWild_self]; rfl

theorem mozfunSubGo_contains : ∀ (fuel : Nat) (name repl cs p r : List Char),
    name ≠ [] → cs.length ≤ fuel → cs = p ++ name ++ r →
    ∃ x y, mozfunSubGo name repl fuel cs = x ++ repl ++ y := by
  intro fuel
  induction fuel with
  | zero =>
    intro name repl cs p r hne hlen hcs
    have hnil : cs = [] := List.eq_nil_of_length_eq_zero (Nat.le_zero.mp hlen)
    subst hnil
    exfalso
    rcases List.append_eq_nil.mp hcs.symm with ⟨h1, -⟩
    rcases List.append_eq_nil.mp h1 with ⟨-, h2⟩
    exact hne h2
  | succ fuel ih =>
    intro name repl cs p r hne hlen hcs
    cases cs with
    | nil =>
      exfalso
      rcases List.append_eq_nil.mp hcs.symm with ⟨h1, -⟩
      rcases List.append_eq_nil.mp h1 with ⟨-, h2⟩
      exact hne h2
    | cons c cs0 =>
      simp only [mozfunSubGo]
      cases ht : tryMozfunAt name (c :: cs0) with
      | some rest =>
        show ∃ x y,
          (if rest.length ≤ cs0.length then repl ++ mozfunSubGo name repl fuel rest
           else repl ++ c :: mozfunSubGo name repl fuel cs0) = x ++ repl ++ y
        by_cases hr : rest.length ≤ cs0.length
        · rw [if_pos hr]; exact ⟨[], _, rfl⟩
        · rw [if_neg hr]; exact ⟨[], _, rfl⟩
      | none =>
        show ∃ x y, c :: mozfunSubGo name repl fuel cs0 = x ++ repl ++ y
        cases p with
        | nil =>
          exfalso
          have h2 : (tryMozfunAt name (c :: cs0)).isSome := by
            rw [show c :: cs0 = name ++ r from by simpa using hcs]
            exact tryMozfunAt_at_occurrence name r
          rw [ht] at h2
          cases h2
        | cons q qs =>
          injection hcs with h1 h2
          have hlen2 : cs0.length ≤ fuel := by
            simp only [List.length_cons] at hlen
            omega
          obtain ⟨x, y, hxy⟩ := ih name repl cs0 qs r hne hlen2 h2
          exact ⟨c :: x, y, by simp [hxy]⟩

theorem toListNeNil_of_ne_empty {s : String} (h : s ≠ "") : s.toList ≠ [] := by
  intro hl
  exact h (by rw [← strMkToList s, hl])

/-- C8 amended: the per-routine substitution step of sub_local_routines
    replaces leftmost non-overlapping matches of (?:mozfun.)?NAME with the
    name with dots substituted by underscores, prefixed by the generic
    dataset sentinel and a dot exactly when the registry marks the routine as
    a procedure; whenever the qualified name occurs in the text, the
    replacement occurs in the output. Occurrences overlapping an earlier
    match are not replaced (see the counterexample). -/
theorem C8_amended : ∀ (r : MozfunRoutine) (sql : String),
    r.name ≠ "" → pyContains sql r.name = true →
    pyContains (mozfunRoutineSub r sql) (mozfunReplName r) = true ∧
    mozfunReplName r = (if r.is_udf then dotsToUnderscores r.name
                        else GENERIC_DATASET ++ "." ++ dotsToUnderscores r.name) := by
  intro r sql hne hc
  refine ⟨?_, rfl⟩
  rw [pyContains, subFind_iff] at hc
  obtain ⟨p, rr, hdec⟩ := hc
  show subFind (mozfunReplName r).toList
      (mozfunSubGo r.name.toList (mozfunReplName r).toList sql.toList.length sql.toList)
      = true
  rw [subFind_iff]
  obtain ⟨x, y, hxy⟩ := mozfunSubGo_contains sql.toList.length r.name.toList
    (mozfunReplName r).toList sql.toList p rr (toListNeNil_of_ne_empty hne) le_rfl hdec
  exact ⟨x, y, hxy⟩

theorem C8_amended_witness :
    mozfunRoutineSub ⟨"ds.f", false⟩ "SELECT ds.f(1);" = "SELECT _generic_dataset_.ds_f(1);" ∧
    pyContains (mozfunRoutineSub ⟨"ds.f", false⟩ "SELECT ds.f(1);")
      (mozfunReplName ⟨"ds.f", false⟩) = true ∧
    mozfunReplName ⟨"ds.f", false⟩ = "_generic_dataset_.ds_f" :=
  ⟨by decide,
   (C8_amended ⟨"ds.f", false⟩ "SELECT ds.f(1);" (by decide) (by decide)).1,
   by decide⟩

-- ### C5: unterminated procedure-body spans

theorem scanStep_ps_le {stmts : List String} {pn tn : String} {st : UdfScanState} {i : Nat}
    {s : String} (h : ∀ ps, st.procedure_start = some ps → ps ≤ i) :
    ∀ ps, (scanStep stmts pn tn st i s).procedure_start = some ps → ps ≤ i + 1 := by
  intro ps hps
  simp only [scanStep] at hps
  repeat' split at hps
  all_goals simp_all
  all_goals omega

theorem scanStep_append (stmts : List String) (s pn tn : String) (st : UdfScanState)
    (i : Nat) (s' : String) (hi : i < stmts.length)
    (hinv : ∀ ps, st.procedure_start = some ps → ps ≤ i) :
    scanStep (stmts ++ [s]) pn tn st i s' = scanStep stmts pn tn st i s' := by
  simp only [scanStep]
  repeat' split
  all_goals try rfl
  all_goals simp_all
  all_goals rw [List.drop_append_of_le_length (by omega),
    List.take_append_of_le_length (by rw [List.length_drop]; omega)]

theorem scanGo_append :
    ∀ (l : List String) (j : Nat) (st : UdfScanState) (stmts : List String) (s pn tn : String),
    j + l.length ≤ stmts.length →
    (∀ ps, st.procedure_start = some ps → ps ≤ j) →
    (l.enumFrom j).foldl (fun a p => scanStep (stmts ++ [s]) pn tn a p.1 p.2) st
      = (l.enumFrom j).foldl (fun a p => scanStep stmts pn tn a p.1 p.2) st := by
  intro l
  induction l with
  | nil => intro j st stmts s pn tn hle hinv; rfl
  | cons x xs ih =>
    intro j st stmts s pn tn hle hinv
    rw [show List.enumFrom j (x :: xs) = (j, x) :: List.enumFrom (j + 1) xs from rfl]
    rw [List.foldl_cons, List.foldl_cons]
    have hj : j < stmts.length := by simp at hle; omega
    show ((List.enumFrom (j + 1) xs).foldl (fun a p => scanStep (stmts ++ [s]) pn tn a p.1 p.2)
        (scanStep (stmts ++ [s]) pn tn st j x)) = _
    rw [scanStep_append stmts s pn tn st j x hj hinv]
    exact ih (j + 1) _ stmts s pn tn (by simp at hle ⊢; omega) (scanStep_ps_le hinv)

theorem scanStatements_drop_trailing_begin (stmts : List String) (s pn tn : String)
    (hb : pyStartsWith (pyNormalize s) "begin" = true)
    (he : pyEndsWith (pyNormalize s) "end;" = false) :
    (scanStatements (stmts ++ [s]) pn tn).tests = (scanStatements stmts pn tn).tests := by
  obtain ⟨r1, hr1⟩ := (listStartsWith_iff _ _).mp hb
  have hc1 : pyStartsWith (pyNormalize s) "create or replace function" = false := by
    show listStartsWith (pyNormalize s).toList "create or replace function".toList = false
    rw [hr1]; rfl
  have hc2 : pyStartsWith (pyNormalize s) "create temp function" = false := by
    show listStartsWith (pyNormalize s).toList "create temp function".toList = false
    rw [hr1]; rfl
  have hc3 : pyStartsWith (pyNormalize s) "create or replace procedure" = false := by
    show listStartsWith (pyNormalize s).toList "create or replace procedure".toList = false
    rw [hr1]; rfl
  unfold scanStatements
  show (((stmts ++ [s]).enumFrom 0).foldl
      (fun a p => scanStep (stmts ++ [s]) pn tn a p.1 p.2) initScanState).tests
    = ((stmts.enumFrom 0).foldl
      (fun a p => scanStep stmts pn tn a p.1 p.2) initScanState).tests
  rw [List.enumFrom_append]
  rw [List.foldl_append]
  rw [show List.enumFrom (0 + stmts.length) [s] = [(0 + stmts.length, s)] from rfl]
  rw [List.foldl_cons, List.foldl_nil]
  rw [scanGo_append stmts 0 initScanState stmts s pn tn (by simp) (by intro ps hps; cases hps)]
  generalize (stmts.enumFrom 0).foldl
    (fun a p => scanStep stmts pn tn a p.1 p.2) initScanState = ST
  simp [scanStep, hc1, hc2, hc3, hb, he]

theorem from_text_tests : ∀ (registry : List MozfunRoutine) (text ds nm : String)
    (fp : Option String) (desc : String) (b : Bool) (r : RawUdf),
    RawUdf.from_text registry text ds nm fp desc b = .ok r →
    r.tests = (scanStatements ((sqlparse_split (sqlparse_format_strip_comments text)).filter
      (fun s => !(pyStrip s).toList.isEmpty)) (ds ++ "." ++ nm) (ds ++ "_" ++ nm)).tests := by
  intro reg text ds nm fp desc b r h
  simp only [RawUdf.from_text] at h
  split at h
  · cases h
  · split at h
    · cases h
    · split at h
      · cases h
      · split at h
        · split at h
          · cases h
          · cases h; rfl
        · cases h; rfl

/-- C5 amended: an unterminated procedure-body span is silently dropped, not
    an error: a trailing statement that opens a span (its normalized form
    starts with begin) and does not close it (does not end with end;) leaves
    the tests of the scan exactly as they were without it, and the tests list
    of every successfully built record is exactly the tests of that scan.
    from_text raises no malformed-input error; no such error exists. -/
theorem C5_amended :
    (∀ (stmts : List String) (s pn tn : String),
      pyStartsWith (pyNormalize s) "begin" = true →
      pyEndsWith (pyNormalize s) "end;" = false →
      (scanStatements (stmts ++ [s]) pn tn).tests = (scanStatements stmts pn tn).tests) ∧
    (∀ (registry : List MozfunRoutine) (text ds nm : String) (fp : Option String)
      (desc : String) (b : Bool) (r : RawUdf),
      RawUdf.from_text registry text ds nm fp desc b = .ok r →
      r.tests = (scanStatements ((sqlparse_split (sqlparse_format_strip_comments text)).filter
        (fun s => !(pyStrip s).toList.isEmpty)) (ds ++ "." ++ nm) (ds ++ "_" ++ nm)).tests) :=
  ⟨scanStatements_drop_trailing_begin, from_text_tests⟩

theorem C5_amended_witness :
    (scanStatements ["SELECT 1;", "BEGIN SELECT 2;"] "udf.foo" "udf_foo").tests
      = (scanStatements ["SELECT 1;"] "udf.foo" "udf_foo").tests ∧
    (scanStatements ["SELECT 1;"] "udf.foo" "udf_foo").tests = ["SELECT 1;"] :=
  ⟨C5_amended.1 ["SELECT 1;"] "BEGIN SELECT 2;" "udf.foo" "udf_foo" (by decide) (by decide),
   by decide⟩

-- ### C9: the name rule

/-- A simple identifier: a leading letter and at most 255 further word
    characters, nothing else. -/
def simpleIdent : List Char → Bool
  | [] => false
  | a :: t => alphaChar a && t.all wordChar && decide (t.length ≤ 255)

/-- The name rule as the amended claim states it, decomposed at the first
    dot of the name: an optional nonempty all-word dataset part before the
    first dot, then a simple identifier; only the identifier part is bounded
    to 256 characters, the dataset part is unbounded. -/
def specNameRule (s : String) : Bool :=
  let cs := s.toList
  if (cs.dropWhile (fun c => c ≠ '.')).isEmpty then simpleIdent cs
  else
    !(cs.takeWhile (fun c => c ≠ '.')).isEmpty
      && (cs.takeWhile (fun c => c ≠ '.')).all wordChar
      && simpleIdent (cs.dropWhile (fun c => c ≠ '.')).tail

theorem dropWhile_head_false {p : Char → Bool} :
    ∀ {l : List Char} {c : Char} {r : List Char}, l.dropWhile p = c :: r → p c = false := by
  intro l
  induction l with
  | nil => intro c r h; cases h
  | cons x xs ih =>
    intro c r h
    rw [List.dropWhile_cons] at h
    split at h
    · exact ih h
    · next hx =>
      cases h
      exact Bool.not_eq_true _ ▸ Bool.of_not_eq_true hx

theorem takeWhile_append_of_all {p : Char → Bool} :
    ∀ {l1 : List Char} (l2 : List Char), (∀ x ∈ l1, p x = true) →
      (l1 ++ l2).takeWhile p = l1 ++ l2.takeWhile p := by
  intro l1
  induction l1 with
  | nil => intro l2 _; rfl
  | cons x xs ih =>
    intro l2 hall
    rw [List.cons_append, List.takeWhile_cons, if_pos (hall x (List.mem_cons_self x xs)),
      ih l2 (fun y hy => hall y (List.mem_cons_of_mem x hy)), List.cons_append]

theorem dropWhile_append_of_all {p : Char → Bool} :
    ∀ {l1 : List Char} (l2 : List Char), (∀ x ∈ l1, p x = true) →
      (l1 ++ l2).dropWhile p = l2.dropWhile p := by
  intro l1
  induction l1 with
  | nil => intro l2 _; rfl
  | cons x xs ih =>
    intro l2 hall
    rw [List.cons_append, List.dropWhile_cons, if_pos (hall x (List.mem_cons_self x xs)),
      ih l2 (fun y hy => hall y (List.mem_cons_of_mem x hy))]

theorem matchNameTail_eq_simpleIdent : ∀ cs : List Char, matchNameTail cs = simpleIdent cs := by
  intro cs
  cases cs with
  | nil => rfl
  | cons a t =>
    cases hall : t.all wordChar with
    | true =>
      have hdw : t.dropWhile wordChar = [] :=
        List.dropWhile_eq_nil_iff.mpr (fun x hx => List.all_eq_true.mp hall x hx)
      have htw : t.takeWhile wordChar = t := by
        have h2 := List.takeWhile_append_dropWhile wordChar t
        rw [hdw, List.append_nil] at h2
        exact h2
      simp only [matchNameTail, simpleIdent, htw, hdw, hall, List.isEmpty_nil, Bool.and_true]
    | false =>
      have hne : (t.dropWhile wordChar).isEmpty = false := by
        cases hdw : t.dropWhile wordChar with
        | nil =>
          exfalso
          have h2 := List.all_eq_true.mpr (List.dropWhile_eq_nil_iff.mp hdw)
          rw [hall] at h2
          cases h2
        | cons c r => rfl
      simp only [matchNameTail, simpleIdent, hne, hall, Bool.and_false, Bool.false_and]

theorem wordChar_of_alphaChar {c : Char} (h : alphaChar c = true) : wordChar c = true := by
  simp only [alphaChar, Bool.or_eq_true] at h
  simp only [wordChar, Bool.or_eq_true]
  tauto

theorem matchNameTail_false_of_dropWhile_cons :
    ∀ {cs : List Char} {c0 : Char} {r : List Char},
      cs.dropWhile wordChar = c0 :: r → matchNameTail cs = false := by
  intro cs c0 r h
  cases cs with
  | nil => cases h
  | cons a t =>
    rw [List.dropWhile_cons] at h
    split at h
    · simp only [matchNameTail, h, List.isEmpty_cons, Bool.and_false]
    · next ha =>
      have ha2 : alphaChar a = false := by
        cases hA : alphaChar a
        · rfl
        · exact absurd (wordChar_of_alphaChar hA) ha
      simp only [matchNameTail, ha2, Bool.false_and]

theorem udfNameMatches_eq_specNameRule : ∀ s : String, udfNameMatches s = specNameRule s := by
  intro s
  show ((!(s.toList.takeWhile wordChar).isEmpty
      && ((s.toList.dropWhile wordChar).headD ' ' = '.')
      && matchNameTail (s.toList.dropWhile wordChar).tail)
    || matchNameTail s.toList)
    = if (s.toList.dropWhile (fun c => c ≠ '.')).isEmpty then simpleIdent s.toList
      else
        !(s.toList.takeWhile (fun c => c ≠ '.')).isEmpty
          && (s.toList.takeWhile (fun c => c ≠ '.')).all wordChar
          && simpleIdent (s.toList.dropWhile (fun c => c ≠ '.')).tail
  generalize s.toList = cs
  have hWall : ∀ x ∈ cs.takeWhile wordChar, wordChar x = true :=
    fun x hx => List.mem_takeWhile_imp hx
  have hWdot : ∀ x ∈ cs.takeWhile wordChar, (fun c => decide (c ≠ '.')) x = true := by
    intro x hx
    have hw := hWall x hx
    simp only [decide_eq_true_eq]
    intro he
    rw [he] at hw
    cases hw
  have hsplit := List.takeWhile_append_dropWhile wordChar cs
  cases hD : cs.dropWhile wordChar with
  | nil =>
    have hQ : cs.dropWhile (fun c => c ≠ '.') = [] := by
      rw [List.dropWhile_eq_nil_iff]
      intro x hx
      have hx2 : x ∈ cs.takeWhile wordChar := by
        rw [hD, List.append_nil] at hsplit
        rw [hsplit]
        exact hx
      exact hWdot x hx2
    rw [hQ]
    simp [matchNameTail_eq_simpleIdent]
  | cons c0 rest =>
    have hc0w : wordChar c0 = false := dropWhile_head_false hD
    rw [hD] at hsplit
    have hbare : matchNameTail cs = false := matchNameTail_false_of_dropWhile_cons hD
    by_cases hc0 : c0 = '.'
    · subst hc0
      have hQ : cs.dropWhile (fun c => c ≠ '.') = '.' :: rest := by
        conv_lhs => rw [← hsplit]
        rw [dropWhile_append_of_all _ hWdot, List.dropWhile_cons, if_neg (by decide)]
      have hP : cs.takeWhile (fun c => c ≠ '.') = cs.takeWhile wordChar := by
        conv_lhs => rw [← hsplit]
        rw [takeWhile_append_of_all _ hWdot, List.takeWhile_cons, if_neg (by decide),
          List.append_nil]
      have hWallB : (cs.takeWhile wordChar).all wordChar = true := List.all_eq_true.mpr hWall
      rw [hQ, hP, hbare]
      simp [hWallB, matchNameTail_eq_simpleIdent]
    · have hc0d : decide (c0 = '.') = false := decide_eq_false hc0
      cases hQ : cs.dropWhile (fun c => c ≠ '.') with
      | nil =>
        rw [hbare]
        rw [← matchNameTail_eq_simpleIdent cs, hbare]
        simp [hc0]
      | cons q post =>
        have hP2 : cs.takeWhile (fun c => c ≠ '.')
            = cs.takeWhile wordChar ++ c0 :: rest.takeWhile (fun c => c ≠ '.') := by
          conv_lhs => rw [← hsplit]
          rw [takeWhile_append_of_all _ hWdot, List.takeWhile_cons,
            if_pos (decide_eq_true hc0)]
        have hPall : (cs.takeWhile (fun c => c ≠ '.')).all wordChar = false := by
          rw [hP2]
          cases hA : (cs.takeWhile wordChar
              ++ c0 :: rest.takeWhile (fun c => c ≠ '.')).all wordChar with
          | false => rfl
          | true =>
            exfalso
            have h3 := List.all_eq_true.mp hA c0
              (List.mem_append_right _ (List.mem_cons_self _ _))
            rw [hc0w] at h3
            cases h3
        rw [hbare, hPall]
        simp [hc0]

theorem from_text_ok_names : ∀ (registry : List MozfunRoutine) (text ds nm : String)
    (fp : Option String) (desc : String) (r : RawUdf),
    RawUdf.from_text registry text ds nm fp desc true = .ok r →
    udfNameMatches nm = true ∧ udfNameMatches r.name = true := by
  intro reg text ds nm fp desc r h
  simp only [RawUdf.from_text] at h
  split at h
  · cases h
  · next hcond =>
    have h1 : udfNameMatches nm = true := by
      cases hv : udfNameMatches nm with
      | true => rfl
      | false => exact absurd (by rw [hv]; rfl) hcond
    split at h
    · cases h
    · next iname hist =>
      split at h
      · cases h
      · next hcond2 =>
        have h2 : udfNameMatches iname = true := by
          cases hv : udfNameMatches iname with
          | true => rfl
          | false => exact absurd (by rw [hv]; rfl) hcond2
        simp only [if_true] at h
        split at h
        · cases h
        · cases h
          exact ⟨h1, h2⟩

theorem from_text_invalid : ∀ (registry : List MozfunRoutine) (text ds nm : String)
    (fp : Option String) (desc : String) (iname : String),
    (scanStatements ((sqlparse_split (sqlparse_format_strip_comments text)).filter
      (fun s => !(pyStrip s).toList.isEmpty)) (ds ++ "." ++ nm) (ds ++ "_" ++ nm)).internal_name
      = some iname →
    udfNameMatches nm = false ∨ udfNameMatches iname = false →
    ∃ bad, RawUdf.from_text registry text ds nm fp desc true
      = .error (.invalidName bad) := by
  intro reg text ds nm fp desc iname hist hbad
  simp only [RawUdf.from_text]
  cases hv : udfNameMatches nm with
  | false =>
    refine ⟨nm, ?_⟩
    rw [if_pos (by decide)]
  | true =>
    rcases hbad with hbad | hbad
    · rw [hv] at hbad; cases hbad
    · refine ⟨iname, ?_⟩
      rw [if_neg (by decide)]
      split
      · next heq => rw [hist] at heq; cases heq
      · next iname2 heq2 =>
        rw [hist] at heq2
        have he3 : iname = iname2 := Option.some.inj heq2
        subst he3
        rw [if_pos (by rw [hbad]; rfl)]

/-- C9 amended: the validation rule of from_text is UDF_NAME_RE: an optional
    nonempty all-word dataset part ending at the first dot, then a leading
    letter and at most 255 further word characters. Only the part after the
    dot is length-bounded; the dataset part is unbounded, so the total
    length may exceed 256 (see the counterexample). With is_defined=True,
    every accepted record has both its prod name and its resolved name
    satisfying the rule, and when a name resolves but either name violates
    the rule, from_text raises the invalid-name error. -/
theorem C9_amended :
    (∀ s : String, udfNameMatches s = specNameRule s) ∧
    (∀ (registry : List MozfunRoutine) (text ds nm : String) (fp : Option String)
      (desc : String) (r : RawUdf),
      RawUdf.from_text registry text ds nm fp desc true = .ok r →
      specNameRule nm = true ∧ specNameRule r.name = true) ∧
    (∀ (registry : List MozfunRoutine) (text ds nm : String) (fp : Option String)
      (desc : String) (iname : String),
      (scanStatements ((sqlparse_split (sqlparse_format_strip_comments text)).filter
        (fun s => !(pyStrip s).toList.isEmpty)) (ds ++ "." ++ nm) (ds ++ "_" ++ nm)).internal_name
        = some iname →
      specNameRule nm = false ∨ specNameRule iname = false →
      ∃ bad, RawUdf.from_text registry text ds nm fp desc true
        = .error (.invalidName bad)) := by
  refine ⟨udfNameMatches_eq_specNameRule, ?_, ?_⟩
  · intro reg text ds nm fp desc r h
    obtain ⟨h1, h2⟩ := from_text_ok_names reg text ds nm fp desc r h
    rw [← udfNameMatches_eq_specNameRule, ← udfNameMatches_eq_specNameRule]
    exact ⟨h1, h2⟩
  · intro reg text ds nm fp desc iname hist hbad
    apply from_text_invalid reg text ds nm fp desc iname hist
    rw [udfNameMatches_eq_specNameRule, udfNameMatches_eq_specNameRule]
    exact hbad

theorem C9_amended_witness :
    (udfNameMatches "udf.foo" = specNameRule "udf.foo") ∧
    (∃ bad, RawUdf.from_text [] "create or replace function udf.1foo() as (1);"
      "udf" "1foo" none "" true = .error (.invalidName bad)) :=
  ⟨C9_amended.1 "udf.foo",
   C9_amended.2.2 [] "create or replace function udf.1foo() as (1);" "udf" "1foo" none ""
     "udf.1foo" (by decide) (Or.inl (by decide))⟩

-- ### C7: dependency-first ordering of prepended definitions

/-- Every member of l is preceded in l by each of its catalog dependencies
    that is itself a catalog key. -/
def CatOrdered (cat : Catalog) (l : List String) : Prop :=
  ∀ A udf, A ∈ l → lookupCat cat A = some udf →
    ∀ B, B ∈ udf.dependencies → (lookupCat cat B).isSome →
      ∃ l1 l2, l = l1 ++ A :: l2 ∧ B ∈ l1

theorem catOrdered_nil (cat : Catalog) : CatOrdered cat [] := by
  intro A udf hA
  cases hA

theorem accListGo_ordered {cat : Catalog} {f : List String → String → Option (List String)}
    (H : ∀ d n o, f d n = some o → CatOrdered cat d → CatOrdered cat o) :
    ∀ (l deps out : List String), accListGo f deps l = some out →
      CatOrdered cat deps → CatOrdered cat out := by
  intro l
  induction l with
  | nil =>
    intro deps out h hord
    simp only [accListGo] at h
    cases h
    exact hord
  | cons d ds ih =>
    intro deps out h hord
    simp only [accListGo] at h
    cases hf : f deps d with
    | none => rw [hf] at h; cases h
    | some deps2 =>
      rw [hf] at h
      exact ih _ _ h (H _ _ _ hf hord)

theorem acc_ordered : ∀ (fuel : Nat) (cat : Catalog) (deps : List String) (name : String)
    (out : List String), accumulate_dependencies fuel cat deps name = some out →
    CatOrdered cat deps → CatOrdered cat out := by
  intro fuel
  induction fuel with
  | zero => intro cat deps name out h; cases h
  | succ fuel ih =>
    intro cat deps name out h hord
    simp only [accumulate_dependencies] at h
    split at h
    · cases h
      exact hord
    · next u hl =>
      split at h
      · cases h
      · next deps2 hgo =>
        have hord2 : CatOrdered cat deps2 :=
          accListGo_ordered (fun d n o hh => ih cat d n o hh) _ _ _ hgo hord
        have hdeps_in : ∀ d ∈ u.dependencies, (lookupCat cat d).isSome → d ∈ deps2 :=
          accListGo_mem _ _ _ hgo
        split at h
        · cases h
          exact hord2
        · next hmem =>
          cases h
          intro A udf hA hluA B hB hkB
          rcases List.mem_append.mp hA with hA2 | hA2
          · obtain ⟨l1, l2, hdec, hBl1⟩ := hord2 A udf hA2 hluA B hB hkB
            exact ⟨l1, l2 ++ [name], by rw [hdec]; simp, hBl1⟩
          · have hAname : A = name := by
              rcases List.mem_cons.mp hA2 with h3 | h3
              · exact h3
              · cases h3
            subst hAname
            have hu : u = udf := by
              rw [hl] at hluA
              exact Option.some.inj hluA
            rw [← hu] at hB
            exact ⟨deps2, [], rfl, hdeps_in B hB hkB⟩

theorem lookupAll_append : ∀ (cat : Catalog) (l1 l2 : List String) (us : List RawUdf),
    lookupAll cat (l1 ++ l2) = some us →
    ∃ us1 us2, us = us1 ++ us2 ∧ lookupAll cat l1 = some us1 ∧ lookupAll cat l2 = some us2 := by
  intro cat l1
  induction l1 with
  | nil =>
    intro l2 us h
    exact ⟨[], us, rfl, rfl, h⟩
  | cons n ns ih =>
    intro l2 us h
    simp only [List.cons_append, lookupAll] at h
    split at h
    · cases h
    · next u hl =>
      split at h
      · cases h
      · next us0 hr =>
        cases h
        obtain ⟨us1, us2, hdec, h1, h2⟩ := ih l2 us0 hr
        refine ⟨u :: us1, us2, by rw [hdec]; rfl, ?_, h2⟩
        simp only [lookupAll, hl, h1]

theorem lookupAll_cons : ∀ (cat : Catalog) (n : String) (l : List String) (us : List RawUdf),
    lookupAll cat (n :: l) = some us →
    ∃ u us2, lookupCat cat n = some u ∧ lookupAll cat l = some us2 ∧ us = u :: us2 := by
  intro cat n l us h
  simp only [lookupAll] at h
  split at h
  · cases h
  · next u hl =>
    split at h
    · cases h
    · next us0 hr =>
      cases h
      exact ⟨u, us0, hl, hr, rfl⟩

theorem strAppend_assoc (a b c : String) : (a ++ b) ++ c = a ++ (b ++ c) := by
  cases a
  cases b
  cases c
  show String.mk _ = String.mk _
  rw [List.append_assoc]

theorem strAppend_empty (s : String) : s ++ "" = s := by
  cases s with
  | mk d =>
    show String.mk (d ++ []) = String.mk d
    rw [List.append_nil]

/-- The part a nonempty list l1 contributes before e in sep.join(l1 ++ e :: _). -/
def joinPre (sep : String) : List String → String
  | [] => ""
  | l => joinStrs sep l ++ sep

/-- The part a list l2 contributes after e in sep.join(_ ++ e :: l2). -/
def joinSuf (sep : String) : List String → String
  | [] => ""
  | l => sep ++ joinStrs sep l

theorem joinStrs_cons_ne_nil (sep a : String) {l : List String} (h : l ≠ []) :
    joinStrs sep (a :: l) = a ++ sep ++ joinStrs sep l := by
  cases l with
  | nil => exact absurd rfl h
  | cons b t => rfl

theorem joinSuf_ne_nil (sep : String) {l : List String} (h : l ≠ []) :
    joinSuf sep l = sep ++ joinStrs sep l := by
  cases l with
  | nil => exact absurd rfl h
  | cons b t => rfl

theorem joinPre_cons (sep a : String) (l : List String) :
    joinPre sep (a :: l) = a ++ sep ++ joinPre sep l := by
  cases l with
  | nil =>
    show joinStrs sep [a] ++ sep = a ++ sep ++ ""
    rw [strAppend_empty]
    rfl
  | cons b t =>
    show joinStrs sep (a :: b :: t) ++ sep = a ++ sep ++ (joinStrs sep (b :: t) ++ sep)
    rw [show joinStrs sep (a :: b :: t) = a ++ sep ++ joinStrs sep (b :: t) from rfl]
    simp only [strAppend_assoc]

theorem joinStrs_split (sep : String) : ∀ (l1 : List String) (e : String) (l2 : List String),
    joinStrs sep (l1 ++ e :: l2) = joinPre sep l1 ++ e ++ joinSuf sep l2 := by
  intro l1
  induction l1 with
  | nil =>
    intro e l2
    cases l2 with
    | nil =>
      show joinStrs sep [e] = "" ++ e ++ ""
      rw [strAppend_empty]
      rfl
    | cons b t =>
      show joinStrs sep (e :: b :: t) = "" ++ e ++ (sep ++ joinStrs sep (b :: t))
      rw [show joinStrs sep (e :: b :: t) = e ++ sep ++ joinStrs sep (b :: t) from rfl]
      rw [show ("" ++ e : String) = e from rfl, strAppend_assoc]
  | cons a l1' ih =>
    intro e l2
    rw [List.cons_append, joinStrs_cons_ne_nil sep a (by simp), ih, joinPre_cons]
    simp only [strAppend_assoc]

theorem joinStrs_split2_last (sep : String) (P Q R : List String) (e1 e2 t : String) :
    joinStrs sep (P ++ e1 :: (Q ++ e2 :: (R ++ [t])))
      = joinPre sep P ++ e1 ++ (sep ++ joinPre sep Q) ++ e2
        ++ (sep ++ joinPre sep R) ++ t := by
  rw [joinStrs_split sep P e1 (Q ++ e2 :: (R ++ [t]))]
  rw [joinSuf_ne_nil sep (by simp)]
  rw [joinStrs_split sep Q e2 (R ++ [t])]
  rw [show (R ++ [t] : List String) = R ++ t :: [] from rfl]
  rw [joinSuf_ne_nil sep (by simp)]
  rw [joinStrs_split sep R t []]
  rw [show joinSuf sep [] = "" from rfl, strAppend_empty]
  simp only [strAppend_assoc]

theorem joinStrs_shape (sep : String) (S1 b1 b2 S2 a1 a2 S3 : List String) (bdef adef t : String) :
    joinStrs sep ((S1 ++ ((b1 ++ bdef :: b2) ++ (S2 ++ ((a1 ++ adef :: a2) ++ S3)))) ++ [t])
      = joinPre sep (S1 ++ b1) ++ bdef ++ (sep ++ joinPre sep (b2 ++ (S2 ++ a1))) ++ adef
        ++ (sep ++ joinPre sep (a2 ++ S3)) ++ t := by
  rw [show (S1 ++ ((b1 ++ bdef :: b2) ++ (S2 ++ ((a1 ++ adef :: a2) ++ S3)))) ++ [t]
      = (S1 ++ b1) ++ (bdef :: ((b2 ++ (S2 ++ a1)) ++ (adef :: ((a2 ++ S3) ++ [t]))))
    from by simp [List.append_assoc]]
  exact joinStrs_split2_last sep (S1 ++ b1) (b2 ++ (S2 ++ a1)) (a2 ++ S3) bdef adef t

/-- C7: in an acyclic (terminating) resolution, for a test that references
    routine A whose dependencies include routine B (both catalogued), and
    whose text does not already contain the relevant definition statements,
    the prepended SQL contains a definition of B strictly before a definition
    of A, and both strictly before the original test text. -/
theorem C7_order : ∀ (fuel : Nat) (registry : List MozfunRoutine) (raw_udfs : Catalog)
    (text A B : String) (audf budf : RawUdf) (adef bdef : String) (stmts : List String),
    lookupCat raw_udfs A = some audf →
    lookupCat raw_udfs B = some budf →
    B ∈ audf.dependencies →
    A ∈ udf_usages_in_text registry text →
    udf_usage_definitions fuel text raw_udfs registry = some stmts →
    adef ∈ audf.definitions → bdef ∈ budf.definitions →
    pyContains text adef = false → pyContains text bdef = false →
    ∃ x y z : String,
      prepend_udf_usage_definitions fuel text raw_udfs registry
        = some (x ++ bdef ++ y ++ adef ++ z ++ text) := by
  intro fuel reg cat text A B audf budf adef bdef stmts hA hB hAB husage hdefs hadef hbdef hca hcb
  have h5 := hdefs
  simp only [udf_usage_definitions] at hdefs
  split at hdefs
  · cases hdefs
  · next deps hgo =>
    split at hdefs
    · cases hdefs
    · next us hla =>
      have hstmts : stmts
          = us.flatMap (fun u => u.definitions.filter (fun st => !pyContains text st)) := by
        cases hdefs
        rfl
      have hkeyA : (lookupCat cat A).isSome = true := by rw [hA]; rfl
      have hkeyB : (lookupCat cat B).isSome = true := by rw [hB]; rfl
      have hAmem : A ∈ deps := accListGo_mem _ _ _ hgo A husage hkeyA
      have hord : CatOrdered cat deps :=
        accListGo_ordered (fun d n o hh => acc_ordered fuel cat d n o hh) _ _ _ hgo
          (catOrdered_nil cat)
      obtain ⟨l1, l2, hdec, hBl1⟩ := hord A audf hAmem hA B hAB hkeyB
      obtain ⟨m1, m2, hBdec⟩ := List.append_of_mem hBl1
      have hdeps : deps = m1 ++ (B :: (m2 ++ (A :: l2))) := by
        rw [hdec, hBdec]
        simp [List.append_assoc]
      rw [hdeps] at hla
      obtain ⟨us1, usB, husdec, hla1, hlaB⟩ := lookupAll_append cat _ _ _ hla
      obtain ⟨bu, usB2, hluB, hlaB2, husBdec⟩ := lookupAll_cons cat _ _ _ hlaB
      have hbu : bu = budf := by
        rw [hB] at hluB
        exact (Option.some.inj hluB).symm
      rw [hbu] at husBdec
      obtain ⟨us2, usA, husdec2, hla2, hlaA⟩ := lookupAll_append cat _ _ _ hlaB2
      obtain ⟨au, usA2, hluA, hlaA2, husAdec⟩ := lookupAll_cons cat _ _ _ hlaA
      have hau : au = audf := by
        rw [hA] at hluA
        exact (Option.some.inj hluA).symm
      rw [hau] at husAdec
      have hus : us = us1 ++ (budf :: (us2 ++ (audf :: usA2))) := by
        rw [husdec, husBdec, husdec2, husAdec]
      have hbF : bdef ∈ budf.definitions.filter (fun st => !pyContains text st) :=
        List.mem_filter.mpr ⟨hbdef, by rw [hcb]; rfl⟩
      have haF : adef ∈ audf.definitions.filter (fun st => !pyContains text st) :=
        List.mem_filter.mpr ⟨hadef, by rw [hca]; rfl⟩
      obtain ⟨b1, b2, hFb⟩ := List.append_of_mem hbF
      obtain ⟨a1, a2, hFa⟩ := List.append_of_mem haF
      refine ⟨joinPre "\n\n"
          ((us1.flatMap (fun u => u.definitions.filter (fun st => !pyContains text st))) ++ b1),
        "\n\n" ++ joinPre "\n\n"
          (b2 ++ ((us2.flatMap (fun u => u.definitions.filter (fun st => !pyContains text st))) ++ a1)),
        "\n\n" ++ joinPre "\n\n"
          (a2 ++ (usA2.flatMap (fun u => u.definitions.filter (fun st => !pyContains text st)))), ?_⟩
      simp only [prepend_udf_usage_definitions]
      rw [h5]
      refine congrArg some ?_
      rw [hstmts, hus]
      simp only [List.flatMap_append, List.flatMap_cons]
      rw [hFb, hFa]
      exact joinStrs_shape "\n\n"
        (us1.flatMap (fun u => u.definitions.filter (fun st => !pyContains text st))) b1 b2
        (us2.flatMap (fun u => u.definitions.filter (fun st => !pyContains text st))) a1 a2
        (usA2.flatMap (fun u => u.definitions.filter (fun st => !pyContains text st)))
        bdef adef text

/-- The two catalog records of sampleCatalog, named for the C7 instantiation. -/
def c7audf : RawUdf :=
  ⟨"udf.a", "udf", none, ["CREATE OR REPLACE FUNCTION udf.a() AS (udf.b());"], [], ["udf.b"], "", false⟩

def c7budf : RawUdf :=
  ⟨"udf.b", "udf", none, ["CREATE OR REPLACE FUNCTION udf.b() AS (1);"], [], [], "", false⟩

set_option maxRecDepth 100000 in
theorem C7_order_witness :
    (lookupCat sampleCatalog "udf.a" = some c7audf
      ∧ lookupCat sampleCatalog "udf.b" = some c7budf
      ∧ "udf.b" ∈ c7audf.dependencies
      ∧ "udf.a" ∈ udf_usages_in_text [] "SELECT udf.a(0);"
      ∧ udf_usage_definitions 10 "SELECT udf.a(0);" sampleCatalog []
          = some ["CREATE OR REPLACE FUNCTION udf.b() AS (1);",
                  "CREATE OR REPLACE FUNCTION udf.a() AS (udf.b());"]
      ∧ "CREATE OR REPLACE FUNCTION udf.a() AS (udf.b());" ∈ c7audf.definitions
      ∧ "CREATE OR REPLACE FUNCTION udf.b() AS (1);" ∈ c7budf.definitions
      ∧ pyContains "SELECT udf.a(0);" "CREATE OR REPLACE FUNCTION udf.a() AS (udf.b());" = false
      ∧ pyContains "SELECT udf.a(0);" "CREATE OR REPLACE FUNCTION udf.b() AS (1);" = false)
    ∧ (∃ x y z : String,
      prepend_udf_usage_definitions 10 "SELECT udf.a(0);" sampleCatalog []
        = some (x ++ "CREATE OR REPLACE FUNCTION udf.b() AS (1);" ++ y
          ++ "CREATE OR REPLACE FUNCTION udf.a() AS (udf.b());" ++ z ++ "SELECT udf.a(0);")) :=
  ⟨by decide,
   C7_order 10 [] sampleCatalog "SELECT udf.a(0);" "udf.a" "udf.b" c7audf c7budf
     "CREATE OR REPLACE FUNCTION udf.a() AS (udf.b());"
     "CREATE OR REPLACE FUNCTION udf.b() AS (1);"
     ["CREATE OR REPLACE FUNCTION udf.b() AS (1);",
      "CREATE OR REPLACE FUNCTION udf.a() AS (udf.b());"]
     (by decide) (by decide) (by decide) (by decide) (by decide) (by decide) (by decide)
     (by decide) (by decide)⟩
